import Mathlib

/-!
Verification development for the solar-energy prediction notebook
(Project_EnergyData.ipynb).  The notebook pipeline is embedded shallowly:

* tables retrieved from the document store are lists of named columns,
  a column being a list of optional values (missing entries are `none`);
* the cleaning step (pandas "DataFrame.fillna(method=ffill)") is `ffillTable`,
  the per-column forward fill being `ffillCol`;
* dropping the store identifier column (pandas "drop(_id, axis=1)")
  is `dropCol`;
* ingestion ("import_csv_data"), feature selection, scaling, metrics and
  the dashboard callback ("update_output") are embedded further below.
-/

set_option autoImplicit false

namespace SolarEnergy

universe u

/-- One column of a retrieved table: a list of optional values, `none`
marking a missing entry. -/
abbrev Col (α : Type u) := List (Option α)

/-- A table as stored in a pandas DataFrame: named columns. -/
abbrev Table (α : Type u) := List (String × Col α)

/-- Forward fill of one column, carrying the last seen valid value
(`last`, initially `none`): embedding of pandas
"fillna(method=ffill)" restricted to a single column.  A missing entry
is replaced by the carried value; a valid entry is kept and becomes the
new carried value. -/
def ffillFrom {α : Type u} (last : Option α) : Col α → Col α
  | [] => []
  | some v :: rest => some v :: ffillFrom (some v) rest
  | none :: rest => last :: ffillFrom last rest

/-- Forward fill of a whole column, starting with no carried value
(so a leading gap stays unset). -/
def ffillCol {α : Type u} (c : Col α) : Col α :=
  ffillFrom none c

/-- Forward fill applied to every column of a table: embedding of
"data.fillna(method=ffill, inplace=True)". -/
def ffillTable {α : Type u} (t : Table α) : Table α :=
  t.map (fun p => (p.1, ffillCol p.2))

/-- Dropping a named column from a table: embedding of
"data.drop(_id, axis=1, inplace=True)". -/
def dropCol {α : Type u} (n : String) (t : Table α) : Table α :=
  t.filter (fun p => p.1 ≠ n)

/-- The cleaning stage applied to a retrieved table: drop the
store-assigned identifier column, then forward-fill per column
(cell 5 of the notebook). -/
def cleanTable {α : Type u} (t : Table α) : Table α :=
  ffillTable (dropCol "_id" t)

/-- The value forward fill puts at index `i` of a column, given carried
value `last`: the last valid entry at an index `≤ i`, or `last` when
there is none.  Used to characterise `ffillFrom`. -/
def fillVal {α : Type u} (last : Option α) : Col α → ℕ → Option α
  | [], _ => last
  | some v :: _, 0 => some v
  | none :: _, 0 => last
  | some v :: rest, i + 1 => fillVal (some v) rest i
  | none :: rest, i + 1 => fillVal last rest i

theorem ffillFrom_length {α : Type u} (last : Option α) (c : Col α) :
    (ffillFrom last c).length = c.length := by
  induction c generalizing last with
  | nil => rfl
  | cons x rest ih =>
    cases x with
    | none => simp [ffillFrom, ih]
    | some v => simp [ffillFrom, ih]

theorem ffillCol_length {α : Type u} (c : Col α) :
    (ffillCol c).length = c.length :=
  ffillFrom_length none c

/-- Pointwise characterisation of forward fill via `fillVal`. -/
theorem ffillFrom_get? {α : Type u} (last : Option α) (c : Col α) (i : ℕ)
    (hi : i < c.length) :
    (ffillFrom last c).get? i = some (fillVal last c i) := by
  induction c generalizing last i with
  | nil => simp at hi
  | cons x rest ih =>
    cases x with
    | none =>
      cases i with
      | zero => simp [ffillFrom, fillVal]
      | succ i =>
        simp only [ffillFrom, List.get?, fillVal]
        exact ih last i (by simpa using Nat.lt_of_succ_lt_succ hi)
    | some v =>
      cases i with
      | zero => simp [ffillFrom, fillVal]
      | succ i =>
        simp only [ffillFrom, List.get?, fillVal]
        exact ih (some v) i (by simpa using Nat.lt_of_succ_lt_succ hi)

/-- If every entry up to index `i` is missing, `fillVal` returns the
carried value. -/
theorem fillVal_of_all_none {α : Type u} (last : Option α) (c : Col α) (i : ℕ)
    (h : ∀ j, j ≤ i → c.get? j = some none ∨ c.get? j = none) :
    fillVal last c i = last := by
  induction c generalizing last i with
  | nil => cases i <;> rfl
  | cons x rest ih =>
    cases i with
    | zero =>
      have h0 := h 0 (Nat.le_refl 0)
      cases x with
      | none => rfl
      | some v => simp [List.get?] at h0
    | succ i =>
      have h0 := h 0 (Nat.zero_le _)
      cases x with
      | none =>
        simp only [fillVal]
        exact ih last i (fun j hj => by
          simpa [List.get?] using h (j + 1) (Nat.succ_le_succ hj))
      | some v => simp [List.get?] at h0

/-- If `c.get? j = some (some v)` and all entries strictly between `j`
and `i` (and at `i`) are missing, with `j < i`, then `fillVal` at `i`
produces `some v`, whatever value is carried in. -/
theorem fillVal_of_last_valid {α : Type u} (c : Col α) (v : α) (i j : ℕ)
    (hj : j < i)
    (hv : c.get? j = some (some v))
    (hgap : ∀ k, j < k → k ≤ i → c.get? k = some none) :
    ∀ last, fillVal last c i = some v := by
  induction c generalizing i j with
  | nil => simp at hv
  | cons x rest ih =>
    intro last
    cases j with
    | zero =>
      simp only [List.get?] at hv
      obtain rfl : x = some v := Option.some.inj hv
      obtain ⟨i', rfl⟩ : ∃ i', i = i' + 1 :=
        ⟨i - 1, by omega⟩
      simp only [fillVal]
      -- after the valid head, all of rest up to i' is none
      have hall : ∀ k, k ≤ i' → rest.get? k = some none ∨ rest.get? k = none := by
        intro k hk
        left
        have := hgap (k + 1) (Nat.succ_pos k) (Nat.succ_le_succ hk)
        simpa [List.get?] using this
      exact fillVal_of_all_none (some v) rest i' hall
    | succ j =>
      obtain ⟨i', rfl⟩ : ∃ i', i = i' + 1 := ⟨i - 1, by omega⟩
      have hv' : rest.get? j = some (some v) := by simpa [List.get?] using hv
      have hgap' : ∀ k, j < k → k ≤ i' → rest.get? k = some none := by
        intro k hk1 hk2
        have := hgap (k + 1) (Nat.succ_lt_succ hk1) (Nat.succ_le_succ hk2)
        simpa [List.get?] using this
      have hj' : j < i' := Nat.lt_of_succ_lt_succ hj
      cases x with
      | none => exact ih i' j hj' hv' hgap' last
      | some w => exact ih i' j hj' hv' hgap' (some w)

/-- Valid entries are left unchanged by forward fill. -/
theorem ffillFrom_preserves {α : Type u} (last : Option α) (c : Col α)
    (i : ℕ) (v : α) (h : c.get? i = some (some v)) :
    (ffillFrom last c).get? i = some (some v) := by
  induction c generalizing last i with
  | nil => simp at h
  | cons x rest ih =>
    cases i with
    | zero =>
      simp only [List.get?] at h
      obtain rfl : x = some v := Option.some.inj h
      rfl
    | succ i =>
      have h' : rest.get? i = some (some v) := by simpa [List.get?] using h
      cases x with
      | none => simpa [ffillFrom, List.get?] using ih last i h'
      | some w => simpa [ffillFrom, List.get?] using ih (some w) i h'

theorem ffillTable_names {α : Type u} (t : Table α) :
    (ffillTable t).map Prod.fst = t.map Prod.fst := by
  induction t with
  | nil => rfl
  | cons p rest ih => simp [ffillTable] at ih ⊢

theorem cleanTable_names {α : Type u} (t : Table α) :
    (cleanTable t).map Prod.fst
      = (t.map Prod.fst).filter (fun n => n ≠ "_id") := by
  rw [cleanTable, ffillTable_names]
  induction t with
  | nil => rfl
  | cons p rest ih =>
    simp only [dropCol, ne_eq, decide_not] at ih ⊢
    by_cases h : p.1 = "_id" <;> simp [List.filter_cons, h, ih]

/-- C1: for every column of a retrieved table, forward fill (i) keeps the
column in the table under its name, (ii) leaves every row before the
column's first non-missing value unset, and (iii) replaces every later
missing value with the value of the nearest preceding non-missing row. -/
theorem C1_forward_fill (t : Table ℚ) (name : String) (col : Col ℚ)
    (hmem : (name, col) ∈ t) :
    (name, ffillCol col) ∈ ffillTable t ∧
    (∀ i, i < col.length → (∀ j, j ≤ i → col.get? j = some none) →
      (ffillCol col).get? i = some none) ∧
    (∀ i j v, j < i → col.get? j = some (some v) →
      (∀ k, j < k → k ≤ i → col.get? k = some none) →
      (ffillCol col).get? i = some (some v)) := by
  refine ⟨?_, ?_, ?_⟩
  · exact List.mem_map.mpr ⟨(name, col), hmem, rfl⟩
  · intro i hi hall
    rw [ffillCol, ffillFrom_get? none col i hi,
      fillVal_of_all_none none col i (fun j hj => Or.inl (hall j hj))]
  · intro i j v hj hv hgap
    have hi : i < col.length := by
      have := hgap i hj (Nat.le_refl i)
      exact (List.get?_eq_some.mp this).1
    rw [ffillCol, ffillFrom_get? none col i hi,
      fillVal_of_last_valid col v i j hj hv hgap none]

/-- Closed instance of C1 on a concrete table: the leading gap of the
MIP column stays unset and the gap after the value 5 is filled with 5. -/
theorem C1_forward_fill_witness :
    ("MIP", ffillCol [none, some (5 : ℚ), none, none])
        ∈ ffillTable [("MIP", [none, some (5 : ℚ), none, none])] ∧
    (ffillCol [none, some (5 : ℚ), none, none]).get? 0 = some none ∧
    (ffillCol [none, some (5 : ℚ), none, none]).get? 3 = some (some 5) := by
  have h := C1_forward_fill [("MIP", [none, some (5 : ℚ), none, none])]
    "MIP" [none, some (5 : ℚ), none, none] (by simp)
  refine ⟨h.1, ?_, ?_⟩
  · exact h.2.1 0 (by decide)
      (fun j hj => by interval_cases j; rfl)
  · exact h.2.2 3 1 5 (by decide) rfl
      (fun k hk1 hk2 => by interval_cases k <;> rfl)

/-- C10: cleaning (dropping the store identifier column, then forward
filling) keeps exactly the retrieved columns other than the identifier,
in order; and for each such column it preserves the row count and every
non-missing entry. -/
theorem C10_clean_preserves (t : Table ℚ) (name : String) (col : Col ℚ)
    (hmem : (name, col) ∈ t) (hname : name ≠ "_id") :
    (cleanTable t).map Prod.fst
      = (t.map Prod.fst).filter (fun n => n ≠ "_id") ∧
    (name, ffillCol col) ∈ cleanTable t ∧
    (ffillCol col).length = col.length ∧
    (∀ i v, col.get? i = some (some v) →
      (ffillCol col).get? i = some (some v)) := by
  refine ⟨cleanTable_names t, ?_, ffillCol_length col, ?_⟩
  · refine List.mem_map.mpr ⟨(name, col), ?_, rfl⟩
    exact List.mem_filter.mpr ⟨hmem, by simpa using hname⟩
  · intro i v hv
    exact ffillFrom_preserves none col i v hv

/-- Closed instance of C10 on a concrete two-column table with an
identifier column. -/
theorem C10_clean_preserves_witness :
    (cleanTable [("_id", [some (0 : ℚ)]), ("MIP", [some (7 : ℚ), none])]).map Prod.fst
      = ["MIP"] ∧
    ("MIP", ffillCol [some (7 : ℚ), none])
      ∈ cleanTable [("_id", [some (0 : ℚ)]), ("MIP", [some (7 : ℚ), none])] ∧
    (ffillCol [some (7 : ℚ), none]).length = 2 ∧
    (ffillCol [some (7 : ℚ), none]).get? 0 = some (some 7) := by
  have h := C10_clean_preserves
    [("_id", [some (0 : ℚ)]), ("MIP", [some (7 : ℚ), none])]
    "MIP" [some (7 : ℚ), none] (by simp) (by decide)
  exact ⟨h.1, h.2.1, h.2.2.1, h.2.2.2 0 7 rfl⟩

/-! ## IEEE-style arithmetic for the metric computations

The notebook computes MAPE with numpy double arithmetic:
"np.mean(np.abs((y_test - preds) / y_test)) * 100".  Division of a
nonzero value by zero produces a signed infinity, 0/0 produces NaN, and
both propagate through abs, sum, mean and scaling.  `FP` models a double
as either a finite (exact rational) value, an infinity, or NaN; only the
finite/non-finite distinction is relied on, never finite rounding. -/

inductive FP where
  | fin : ℚ → FP
  | inf : FP
  | neginf : FP
  | nan : FP
deriving DecidableEq

def FP.isFinite : FP → Bool
  | FP.fin _ => true
  | _ => false

def FP.add : FP → FP → FP
  | FP.fin a, FP.fin b => FP.fin (a + b)
  | FP.fin _, FP.inf => FP.inf
  | FP.fin _, FP.neginf => FP.neginf
  | FP.inf, FP.fin _ => FP.inf
  | FP.neginf, FP.fin _ => FP.neginf
  | FP.inf, FP.inf => FP.inf
  | FP.neginf, FP.neginf => FP.neginf
  | _, _ => FP.nan

def FP.sub : FP → FP → FP
  | FP.fin a, FP.fin b => FP.fin (a - b)
  | FP.fin _, FP.inf => FP.neginf
  | FP.fin _, FP.neginf => FP.inf
  | FP.inf, FP.fin _ => FP.inf
  | FP.neginf, FP.fin _ => FP.neginf
  | FP.inf, FP.neginf => FP.inf
  | FP.neginf, FP.inf => FP.neginf
  | _, _ => FP.nan

def FP.mul : FP → FP → FP
  | FP.fin a, FP.fin b => FP.fin (a * b)
  | FP.fin a, FP.inf =>
      if a = 0 then FP.nan else if 0 < a then FP.inf else FP.neginf
  | FP.fin a, FP.neginf =>
      if a = 0 then FP.nan else if 0 < a then FP.neginf else FP.inf
  | FP.inf, FP.fin b =>
      if b = 0 then FP.nan else if 0 < b then FP.inf else FP.neginf
  | FP.neginf, FP.fin b =>
      if b = 0 then FP.nan else if 0 < b then FP.neginf else FP.inf
  | FP.inf, FP.inf => FP.inf
  | FP.inf, FP.neginf => FP.neginf
  | FP.neginf, FP.inf => FP.neginf
  | FP.neginf, FP.neginf => FP.inf
  | _, _ => FP.nan

def FP.div : FP → FP → FP
  | FP.fin a, FP.fin b =>
      if b = 0 then
        if a = 0 then FP.nan else if 0 < a then FP.inf else FP.neginf
      else FP.fin (a / b)
  | FP.fin _, FP.inf => FP.fin 0
  | FP.fin _, FP.neginf => FP.fin 0
  | FP.inf, FP.fin b => if b < 0 then FP.neginf else FP.inf
  | FP.neginf, FP.fin b => if b < 0 then FP.inf else FP.neginf
  | _, _ => FP.nan

def FP.abs : FP → FP
  | FP.fin a => FP.fin |a|
  | FP.inf => FP.inf
  | FP.neginf => FP.inf
  | FP.nan => FP.nan

/-- numpy sum of a vector of doubles (order-faithful left fold from 0). -/
def FP.sum (l : List FP) : FP :=
  l.foldl FP.add (FP.fin 0)

/-- The per-row MAPE term "np.abs((y_i - p_i) / y_i)". -/
def mapeTerm (p : ℚ × ℚ) : FP :=
  FP.abs (FP.div (FP.sub (FP.fin p.1) (FP.fin p.2)) (FP.fin p.1))

/-- Embedding of "np.mean(np.abs((y_test - preds) / y_test)) * 100"
(cell 9): elementwise term, mean over the rows, scaled by 100. -/
def mape (y preds : List ℚ) : FP :=
  FP.mul
    (FP.div (FP.sum ((y.zip preds).map mapeTerm))
      (FP.fin ((y.zip preds).length : ℚ)))
    (FP.fin 100)

theorem FP.abs_ne_neginf (x : FP) : FP.abs x ≠ FP.neginf := by
  cases x <;> simp [FP.abs]

theorem FP.add_propagate (x y : FP) (hx1 : x ≠ FP.neginf)
    (hx2 : x.isFinite = false) (hy : y ≠ FP.neginf) :
    (FP.add x y).isFinite = false ∧ FP.add x y ≠ FP.neginf := by
  cases x <;> cases y <;> simp_all [FP.add, FP.isFinite]

theorem FP.add_intro (x y : FP) (hx : x ≠ FP.neginf)
    (hy1 : y ≠ FP.neginf) (hy2 : y.isFinite = false) :
    (FP.add x y).isFinite = false ∧ FP.add x y ≠ FP.neginf := by
  cases x <;> cases y <;> simp_all [FP.add, FP.isFinite]

theorem FP.add_ne_neginf (x y : FP) (hx : x ≠ FP.neginf)
    (hy : y ≠ FP.neginf) : FP.add x y ≠ FP.neginf := by
  cases x <;> cases y <;> simp_all [FP.add]

theorem foldl_add_propagate (l : List FP) (acc : FP)
    (hacc1 : acc ≠ FP.neginf) (hacc2 : acc.isFinite = false)
    (hl : ∀ x ∈ l, x ≠ FP.neginf) :
    (l.foldl FP.add acc).isFinite = false ∧
      l.foldl FP.add acc ≠ FP.neginf := by
  induction l generalizing acc with
  | nil => exact ⟨hacc2, hacc1⟩
  | cons y rest ih =>
    have hy : y ≠ FP.neginf := hl y (List.mem_cons_self y rest)
    have h := FP.add_propagate acc y hacc1 hacc2 hy
    exact ih (FP.add acc y) h.2 h.1
      (fun x hx => hl x (List.mem_cons_of_mem y hx))

theorem foldl_add_nonfinite (l : List FP) (acc : FP)
    (hacc : acc ≠ FP.neginf)
    (hl : ∀ x ∈ l, x ≠ FP.neginf)
    (hex : ∃ x ∈ l, x.isFinite = false) :
    (l.foldl FP.add acc).isFinite = false ∧
      l.foldl FP.add acc ≠ FP.neginf := by
  induction l generalizing acc with
  | nil => obtain ⟨x, hx, _⟩ := hex; simp at hx
  | cons y rest ih =>
    have hy : y ≠ FP.neginf := hl y (List.mem_cons_self y rest)
    have hrest : ∀ x ∈ rest, x ≠ FP.neginf :=
      fun x hx => hl x (List.mem_cons_of_mem y hx)
    by_cases hyf : y.isFinite = false
    · have h := FP.add_intro acc y hacc hy hyf
      exact foldl_add_propagate rest (FP.add acc y) h.2 h.1 hrest
    · obtain ⟨x, hx, hxf⟩ := hex
      rcases List.mem_cons.mp hx with rfl | hx'
      · exact absurd hxf hyf
      · exact ih (FP.add acc y) (FP.add_ne_neginf acc y hacc hy) hrest
          ⟨x, hx', hxf⟩

theorem mapeTerm_zero_nonfinite (b : ℚ) :
    (mapeTerm (0, b)).isFinite = false ∧ mapeTerm (0, b) ≠ FP.neginf := by
  refine ⟨?_, FP.abs_ne_neginf _⟩
  have hdiv : FP.div (FP.fin (0 - b)) (FP.fin 0)
      = if 0 - b = 0 then FP.nan
        else if 0 < 0 - b then FP.inf else FP.neginf := by
    simp [FP.div]
  simp only [mapeTerm, FP.sub, hdiv]
  rcases lt_trichotomy (0 - b) 0 with h | h | h
  · rw [if_neg (ne_of_lt h), if_neg (not_lt.mpr (le_of_lt h))]; rfl
  · rw [if_pos h]; rfl
  · rw [if_neg (ne_of_gt h), if_pos h]; rfl

theorem zip_get?_eq {α β : Type u} (l1 : List α) (l2 : List β) (i : ℕ)
    (a : α) (b : β) (h1 : l1.get? i = some a) (h2 : l2.get? i = some b) :
    (l1.zip l2).get? i = some (a, b) := by
  induction l1 generalizing l2 i with
  | nil => simp at h1
  | cons x rest ih =>
    cases l2 with
    | nil => simp at h2
    | cons y rest2 =>
      cases i with
      | zero =>
        simp only [List.get?] at h1 h2
        obtain rfl : x = a := Option.some.inj h1
        obtain rfl : y = b := Option.some.inj h2
        rfl
      | succ i =>
        simp only [List.get?] at h1 h2 ⊢
        exact ih rest2 i h1 h2

theorem FP.div_pos_nonfinite (x : FP) (q : ℚ) (hx1 : x.isFinite = false)
    (hx2 : x ≠ FP.neginf) (hq : 0 < q) :
    (FP.div x (FP.fin q)).isFinite = false ∧
      FP.div x (FP.fin q) ≠ FP.neginf := by
  cases x with
  | fin a => simp [FP.isFinite] at hx1
  | inf =>
    have : FP.div FP.inf (FP.fin q) = FP.inf := by
      simp [FP.div, not_lt.mpr hq.le]
    rw [this]; exact ⟨rfl, by simp⟩
  | neginf => exact absurd rfl hx2
  | nan => exact ⟨rfl, by simp [FP.div]⟩

theorem FP.mul_hundred_nonfinite (x : FP) (hx1 : x.isFinite = false)
    (hx2 : x ≠ FP.neginf) :
    (FP.mul x (FP.fin 100)).isFinite = false := by
  cases x with
  | fin a => simp [FP.isFinite] at hx1
  | inf =>
    have : FP.mul FP.inf (FP.fin 100) = FP.inf := by norm_num [FP.mul]
    rw [this]; rfl
  | neginf => exact absurd rfl hx2
  | nan => rfl

/-- C2: whenever at least one actual target value in the test set is
zero, the MAPE "np.mean(np.abs((y_test - preds) / y_test)) * 100" is a
non-finite value — for every prediction vector, hence for every model;
no special handling of the zero-actual case exists in the formula. -/
theorem C2_mape_nonfinite (y preds : List ℚ) (hlen : y.length = preds.length)
    (i : ℕ) (hi : i < y.length) (hz : y.get? i = some 0) :
    (mape y preds).isFinite = false := by
  have hip : i < preds.length := hlen ▸ hi
  obtain ⟨b, hb⟩ : ∃ b, preds.get? i = some b :=
    ⟨preds.get ⟨i, hip⟩, List.get?_eq_get hip⟩
  have hzip := zip_get?_eq y preds i 0 b hz hb
  have hmem : ((0 : ℚ), b) ∈ y.zip preds := List.get?_mem hzip
  have hterm : mapeTerm (0, b) ∈ (y.zip preds).map mapeTerm :=
    List.mem_map_of_mem mapeTerm hmem
  have hall : ∀ x ∈ (y.zip preds).map mapeTerm, x ≠ FP.neginf := by
    intro x hx
    obtain ⟨p, _, rfl⟩ := List.mem_map.mp hx
    exact FP.abs_ne_neginf _
  have hsum := foldl_add_nonfinite ((y.zip preds).map mapeTerm) (FP.fin 0)
    (by simp) hall ⟨mapeTerm (0, b), hterm, (mapeTerm_zero_nonfinite b).1⟩
  have hlenq : (0 : ℚ) < (((y.zip preds).length : ℕ) : ℚ) := by
    have hpos : 0 < (y.zip preds).length := by
      rw [List.length_zip]
      omega
    exact_mod_cast hpos
  have hdiv := FP.div_pos_nonfinite (FP.sum ((y.zip preds).map mapeTerm))
    (((y.zip preds).length : ℕ) : ℚ) hsum.1 hsum.2 hlenq
  exact FP.mul_hundred_nonfinite _ hdiv.1 hdiv.2

/-- Closed instance of C2: actual values [0, 2] (one zero) with
predictions [1, 2] give a non-finite MAPE. -/
theorem C2_mape_nonfinite_witness :
    (mape [0, 2] [1, 2]).isFinite = false :=
  C2_mape_nonfinite [0, 2] [1, 2] rfl 0 (by decide) rfl

/-! ## Evaluation metrics (cell 9)

"rmse = math.sqrt(mean_squared_error(y_test, preds))" and
"mse = mean_squared_error(y_test, preds)" on the same prediction
vector.  Finite double rounding is abstracted to exact arithmetic;
`mean_squared_error` pairs actuals and predictions and divides by the
number of actual samples, as numpy does for equal-length vectors. -/

def mean_squared_error (y preds : List ℚ) : ℚ :=
  ((y.zip preds).map (fun p => (p.1 - p.2) ^ 2)).sum / (y.length : ℚ)

noncomputable def rmse (y preds : List ℚ) : ℝ :=
  Real.sqrt ((mean_squared_error y preds : ℚ) : ℝ)

theorem mean_squared_error_nonneg (y preds : List ℚ) :
    0 ≤ mean_squared_error y preds := by
  unfold mean_squared_error
  apply div_nonneg
  · apply List.sum_nonneg
    intro x hx
    obtain ⟨p, _, rfl⟩ := List.mem_map.mp hx
    positivity
  · positivity

/-- C6: for every model, the reported RMSE squared equals the reported
MSE — RMSE is the square root of the mean squared error and MSE the
mean squared error over the same test predictions. -/
theorem C6_rmse_sq_eq_mse (y preds : List ℚ) :
    rmse y preds ^ 2 = ((mean_squared_error y preds : ℚ) : ℝ) := by
  rw [rmse, Real.sq_sqrt]
  exact_mod_cast mean_squared_error_nonneg y preds

/-! ## Ingestion (cell 3)

"import_csv_data(file_path, required_columns, collection)" reads the
CSV, keeps the required columns ("df[required_columns]", failing when
one is absent), converts each row to a document and bulk-appends them
("collection.insert_many(records)").  A CSV is a list of rows, a row
and a document are named-value association lists. -/

inductive Value where
  | str : String → Value
  | num : ℚ → Value
deriving DecidableEq

abbrev Row := List (String × Value)
abbrev Doc := List (String × Value)

/-- The eight columns imported for each file (cell 3). -/
def columns : List String :=
  ["dtm", "MIP", "Solar_MW", "Solar_capacity_mwp",
   "Solar_installedcapacity_mwp", "SS_Price", "boa_MWh", "DA_Price"]

/-- Column selection "df[required_columns]" on one named-value list:
keeps exactly the required columns, in the required order; fails when
one is absent. -/
def selectColumns {β : Type u} :
    List String → List (String × β) → Option (List (String × β))
  | [], _ => some []
  | c :: cs, r =>
    match r.find? (fun p => p.1 = c) with
    | none => none
    | some p => (selectColumns cs r).map (fun d => (c, p.2) :: d)

/-- "df[required_columns]" applied to every CSV row. -/
def selectRows {β : Type u} (cols : List String) :
    List (List (String × β)) → Option (List (List (String × β)))
  | [] => some []
  | r :: rs =>
    match selectColumns cols r, selectRows cols rs with
    | some d, some ds => some (d :: ds)
    | _, _ => none

/-- Embedding of "import_csv_data": select the required columns of each
CSV row and append the resulting documents to the collection. -/
def import_csv_data (csv : List Row) (required_columns : List String)
    (collection : List Doc) : Option (List Doc) :=
  (selectRows required_columns csv).map (fun ds => collection ++ ds)

theorem selectColumns_keys {β : Type u} (cols : List String)
    (r : List (String × β)) (d : List (String × β))
    (h : selectColumns cols r = some d) : d.map Prod.fst = cols := by
  induction cols generalizing d with
  | nil =>
    simp only [selectColumns] at h
    obtain rfl : ([] : List (String × β)) = d := Option.some.inj h
    rfl
  | cons c cs ih =>
    simp only [selectColumns] at h
    cases hf : r.find? (fun p => p.1 = c) with
    | none => rw [hf] at h; simp at h
    | some p =>
      rw [hf] at h
      cases hs : selectColumns cs r with
      | none => rw [hs] at h; simp at h
      | some d' =>
        rw [hs] at h
        simp only [Option.map_some] at h
        obtain rfl : (c, p.2) :: d' = d := Option.some.inj h
        simp [ih d' hs]

theorem selectRows_spec {β : Type u} (cols : List String)
    (csv : List (List (String × β))) (ds : List (List (String × β)))
    (h : selectRows cols csv = some ds) :
    ds.length = csv.length ∧ ∀ d ∈ ds, d.map Prod.fst = cols := by
  induction csv generalizing ds with
  | nil =>
    simp only [selectRows] at h
    obtain rfl : ([] : List (List (String × β))) = ds := Option.some.inj h
    simp
  | cons r rs ih =>
    simp only [selectRows] at h
    cases hc : selectColumns cols r with
    | none => rw [hc] at h; simp at h
    | some d =>
      rw [hc] at h
      cases hs : selectRows cols rs with
      | none => rw [hs] at h; simp at h
      | some ds' =>
        rw [hs] at h
        obtain rfl : d :: ds' = ds := Option.some.inj h
        obtain ⟨hlen, hall⟩ := ih ds' hs
        refine ⟨by simp [hlen], ?_⟩
        intro d' hd'
        rcases List.mem_cons.mp hd' with rfl | hd'
        · exact selectColumns_keys cols r d' hc
        · exact hall d' hd'

/-- C7: ingestion inserts exactly one document per CSV row, each
document carrying exactly the eight listed columns; re-running the same
ingestion on the same file appends the same documents again, doubling
the collection's document count — no upsert key, no idempotence. -/
theorem C7_ingestion (csv : List Row) (docs : List Doc)
    (h : import_csv_data csv columns [] = some docs) :
    columns.length = 8 ∧
    docs.length = csv.length ∧
    (∀ d ∈ docs, d.map Prod.fst = columns) ∧
    import_csv_data csv columns docs = some (docs ++ docs) ∧
    (docs ++ docs).length = 2 * docs.length := by
  simp only [import_csv_data] at h
  cases hs : selectRows columns csv with
  | none => rw [hs] at h; simp at h
  | some ds =>
    rw [hs] at h
    simp only [Option.map_some, List.nil_append] at h
    have hd : ds = docs := Option.some.inj h
    subst hd
    obtain ⟨hlen, hall⟩ := selectRows_spec columns csv ds hs
    refine ⟨rfl, hlen, hall, ?_, by simp [List.length_append, two_mul]⟩
    simp [import_csv_data, hs]

/-- A sample CSV row carrying the eight required columns, plus one
unlisted column that ingestion must discard. -/
def sampleRow : Row :=
  [("extra", Value.num 9), ("dtm", Value.str "t0"), ("MIP", Value.num 1),
   ("Solar_MW", Value.num 2), ("Solar_capacity_mwp", Value.num 3),
   ("Solar_installedcapacity_mwp", Value.num 4), ("SS_Price", Value.num 5),
   ("boa_MWh", Value.num 6), ("DA_Price", Value.num 7)]

/-- The document ingestion produces from `sampleRow`. -/
def sampleDoc : Doc :=
  [("dtm", Value.str "t0"), ("MIP", Value.num 1), ("Solar_MW", Value.num 2),
   ("Solar_capacity_mwp", Value.num 3),
   ("Solar_installedcapacity_mwp", Value.num 4), ("SS_Price", Value.num 5),
   ("boa_MWh", Value.num 6), ("DA_Price", Value.num 7)]

/-- Closed instance of C7 on a one-row CSV. -/
theorem C7_ingestion_witness :
    columns.length = 8 ∧
    [sampleDoc].length = [sampleRow].length ∧
    (∀ d ∈ [sampleDoc], d.map Prod.fst = columns) ∧
    import_csv_data [sampleRow] columns [sampleDoc]
      = some ([sampleDoc] ++ [sampleDoc]) ∧
    ([sampleDoc] ++ [sampleDoc]).length = 2 * [sampleDoc].length := by
  have h := C7_ingestion [sampleRow] [sampleDoc] (by decide)
  exact h

/-! ## Model training (cell 7)

"models = \x7b lr: LinearRegression(), rf: RandomForestRegressor(),
svm: SVR() \x7d; for model_name, model in models.items():
model.fit(X_train_scaled, y_train_split)".  Each fit call reads only
the shared training data and its own model object, so fitting is a map
over the dictionary order; the fitted state of model `k` is `fit k d`
for a black-box training function `fit` (the spec's non-goal: models
are used as black boxes). -/

inductive ModelKey where
  | lr | rf | svm
deriving DecidableEq

/-- The dictionary insertion order of "models" in cell 7. -/
def modelOrder : List ModelKey := [ModelKey.lr, ModelKey.rf, ModelKey.svm]

/-- The fitting loop: one independent fit per key, in the given order. -/
def fitModels {Data Params : Type} (fit : ModelKey → Data → Params)
    (order : List ModelKey) (d : Data) : List (ModelKey × Params) :=
  order.map (fun k => (k, fit k d))

/-- Dictionary lookup of a fitted model. -/
def lookupModel {Params : Type} (m : List (ModelKey × Params))
    (k : ModelKey) : Option Params :=
  (m.find? (fun p => p.1 = k)).map Prod.snd

theorem lookupModel_fitModels {Data Params : Type}
    (fit : ModelKey → Data → Params) (order : List ModelKey) (d : Data)
    (k : ModelKey) :
    lookupModel (fitModels fit order d) k
      = if k ∈ order then some (fit k d) else none := by
  induction order with
  | nil => rfl
  | cons k' rest ih =>
    by_cases h : k' = k
    · subst h
      simp [lookupModel, fitModels, List.find?]
    · simp only [fitModels, List.map_cons, lookupModel, List.find?] at ih ⊢
      rw [decide_eq_false h]
      rw [ih]
      by_cases hk : k ∈ rest <;> simp [hk, Ne.symm h]

/-- C8: fitting the three regressors is order-insensitive — for every
training dataset and every permutation of the fit order, each model's
fitted state is the one obtained from its own independent fit call,
identical to the state under the original (lr, rf, svm) order. -/
theorem C8_fit_order {Data Params : Type} (fit : ModelKey → Data → Params)
    (d : Data) (order : List ModelKey) (k : ModelKey)
    (hperm : order.Perm modelOrder) :
    lookupModel (fitModels fit order d) k
      = lookupModel (fitModels fit modelOrder d) k ∧
    lookupModel (fitModels fit order d) k = some (fit k d) := by
  have hmem : k ∈ order := (hperm.mem_iff).mpr (by cases k <;> simp [modelOrder])
  have hmem2 : k ∈ modelOrder := by cases k <;> simp [modelOrder]
  rw [lookupModel_fitModels, lookupModel_fitModels, if_pos hmem, if_pos hmem2]
  exact ⟨rfl, rfl⟩

/-- A dummy training function: the fitted state records the key. -/
def constFit : ModelKey → ℕ → ModelKey := fun k _ => k

/-- Closed instance of C8: fitting in the order (svm, rf, lr) gives the
random-forest slot the same fitted state as the original order. -/
theorem C8_fit_order_witness :
    lookupModel (fitModels constFit
        [ModelKey.svm, ModelKey.rf, ModelKey.lr] 0) ModelKey.rf
      = lookupModel (fitModels constFit modelOrder 0) ModelKey.rf ∧
    lookupModel (fitModels constFit
        [ModelKey.svm, ModelKey.rf, ModelKey.lr] 0) ModelKey.rf
      = some (constFit ModelKey.rf 0) :=
  C8_fit_order constFit 0 [ModelKey.svm, ModelKey.rf, ModelKey.lr]
    ModelKey.rf (by decide)

/-! ## Feature selection (cells 7 and 9)

"features = [MIP, Solar_capacity_mwp, Solar_installedcapacity_mwp,
SS_Price, boa_MWh, DA_Price]; target = Solar_MW;
X_train = data_train[features]; ... X_test = data_test[features]" —
the same `features` list selects the columns both of the table the
scaler is fitted on and of every table it transforms. -/

def features : List String :=
  ["MIP", "Solar_capacity_mwp", "Solar_installedcapacity_mwp",
   "SS_Price", "boa_MWh", "DA_Price"]

def target : String := "Solar_MW"

/-- The retained columns after cleaning: the eight ingested columns
(the store identifier is dropped by `cleanTable`). -/
def retainedColumns : List String := columns

/-- C5: the feature set is exactly six of the seven retained non-target
columns, excludes the target Solar_MW, and the feature tables built for
the fit call ("data_train[features]") and for every transform call
("data_test[features]") list the columns in the identical order —
namely `features` itself. -/
theorem C5_feature_set (α : Type) (dtrain dtest : Table α)
    (Xtr Xte : Table α)
    (htr : selectColumns features dtrain = some Xtr)
    (hte : selectColumns features dtest = some Xte) :
    features.length = 6 ∧
    target ∉ features ∧
    features.Nodup ∧
    (∀ n ∈ features, n ∈ retainedColumns.erase target) ∧
    (retainedColumns.erase target).length = 7 ∧
    Xtr.map Prod.fst = features ∧
    Xte.map Prod.fst = features := by
  refine ⟨rfl, by decide, by decide, by decide, by decide, ?_, ?_⟩
  · exact selectColumns_keys features dtrain Xtr htr
  · exact selectColumns_keys features dtest Xte hte

/-- A one-row cleaned table carrying all eight retained columns. -/
def sampleClean : Table ℚ := columns.map (fun n => (n, [some 1]))

/-- The feature table selected from `sampleClean`. -/
def sampleX : Table ℚ := features.map (fun n => (n, [some 1]))

/-- Closed instance of C5 on the sample cleaned table. -/
theorem C5_feature_set_witness :
    features.length = 6 ∧
    target ∉ features ∧
    features.Nodup ∧
    (∀ n ∈ features, n ∈ retainedColumns.erase target) ∧
    (retainedColumns.erase target).length = 7 ∧
    sampleX.map Prod.fst = features ∧
    sampleX.map Prod.fst = features :=
  C5_feature_set ℚ sampleClean sampleClean sampleX sampleX
    (by decide) (by decide)

/-! ## Standardization (cells 7 and 9)

"scaler = StandardScaler(); X_train_scaled =
scaler.fit_transform(X_train_split); X_valid_scaled =
scaler.transform(X_valid_split); ... X_test_scaled =
scaler.transform(X_test)".  A feature matrix is a list of rows; fitting
records each feature column's mean and scale (the square root of its
population variance, a zero variance giving scale 1, as sklearn
substitutes); transforming maps each entry x to (x - mean) / scale with
the recorded statistics.  The scaler object is created and fitted once,
in cell 7, and the very same object transforms the test matrix in
cell 9. -/

def colMean (c : List ℚ) : ℚ := c.sum / (c.length : ℚ)

def colVar (c : List ℚ) : ℚ :=
  ((c.map (fun x => (x - colMean c) ^ 2)).sum) / (c.length : ℚ)

noncomputable def colScale (c : List ℚ) : ℝ :=
  if colVar c = 0 then 1 else Real.sqrt ((colVar c : ℚ) : ℝ)

structure Scaler where
  means : List ℚ
  scales : List ℝ

/-- "scaler.fit(X)": per-column statistics of the fitted matrix. -/
noncomputable def fitScaler (X : List (List ℚ)) : Scaler :=
  ⟨X.transpose.map colMean, X.transpose.map colScale⟩

/-- "scaler.transform(X)": entrywise standardization with the fitted
statistics (never recomputed from X). -/
noncomputable def transformScaler (s : Scaler) (X : List (List ℚ)) :
    List (List ℝ) :=
  X.map (fun row =>
    (row.zip (s.means.zip s.scales)).map
      (fun p => ((p.1 : ℝ) - (p.2.1 : ℝ)) / p.2.2))

/-- The three feature matrices flowing through the scaling code: the
80% training split, the 20% validation split, and the test features. -/
structure ScalingPipeline where
  Xtrainsplit : List (List ℚ)
  Xvalidsplit : List (List ℚ)
  Xtest : List (List ℚ)

/-- The scaling dataflow of cells 7 and 9: one fit, on the training
split; three transforms with that single fitted scaler. -/
noncomputable def runScaling (p : ScalingPipeline) :
    Scaler × List (List ℝ) × List (List ℝ) × List (List ℝ) :=
  let scaler := fitScaler p.Xtrainsplit
  (scaler, transformScaler scaler p.Xtrainsplit,
   transformScaler scaler p.Xvalidsplit,
   transformScaler scaler p.Xtest)

/-- C3: the standardization scaler is fitted once, on the training
split's features only, and the test table is transformed with that same
fitted scaler: every scaled test entry is (x - mean) / scale with the
mean and scale of the corresponding training-split column. -/
theorem C3_scaler_reuse (p : ScalingPipeline) (i j : ℕ)
    (row : List ℚ) (x : ℚ) (c : List ℚ)
    (hrow : p.Xtest.get? i = some row) (hx : row.get? j = some x)
    (hc : p.Xtrainsplit.transpose.get? j = some c) :
    (runScaling p).1 = fitScaler p.Xtrainsplit ∧
    (runScaling p).2.2.2 = transformScaler (fitScaler p.Xtrainsplit) p.Xtest ∧
    ∃ srow, ((runScaling p).2.2.2).get? i = some srow ∧
      srow.get? j = some (((x : ℝ) - (colMean c : ℝ)) / colScale c) := by
  refine ⟨rfl, rfl, ?_⟩
  have hm : (fitScaler p.Xtrainsplit).means.get? j = some (colMean c) := by
    simp only [fitScaler, List.get?_map, hc]; rfl
  have hs : (fitScaler p.Xtrainsplit).scales.get? j = some (colScale c) := by
    simp only [fitScaler, List.get?_map, hc]; rfl
  have hzip1 := zip_get?_eq (fitScaler p.Xtrainsplit).means
    (fitScaler p.Xtrainsplit).scales j (colMean c) (colScale c) hm hs
  have hzip2 := zip_get?_eq row
    ((fitScaler p.Xtrainsplit).means.zip (fitScaler p.Xtrainsplit).scales)
    j x (colMean c, colScale c) hx hzip1
  refine ⟨(row.zip ((fitScaler p.Xtrainsplit).means.zip
      (fitScaler p.Xtrainsplit).scales)).map
      (fun p => ((p.1 : ℝ) - (p.2.1 : ℝ)) / p.2.2), ?_, ?_⟩
  · show (transformScaler (fitScaler p.Xtrainsplit) p.Xtest).get? i = _
    simp only [transformScaler, List.get?_map, hrow]; rfl
  · simp only [List.get?_map, hzip2]; rfl

/-- Closed instance of C3: training split [[1], [3]] (mean 2) and test
row [[2]]; the scaled test entry uses the training statistics. -/
theorem C3_scaler_reuse_witness :
    (runScaling ⟨[[1], [3]], [], [[2]]⟩).1 = fitScaler [[1], [3]] ∧
    (runScaling ⟨[[1], [3]], [], [[2]]⟩).2.2.2
      = transformScaler (fitScaler [[1], [3]]) [[2]] ∧
    ∃ srow, ((runScaling ⟨[[1], [3]], [], [[2]]⟩).2.2.2).get? 0 = some srow ∧
      srow.get? 0
        = some ((((2 : ℚ) : ℝ) - ((colMean [1, 3] : ℚ) : ℝ)) / colScale [1, 3]) :=
  C3_scaler_reuse ⟨[[1], [3]], [], [[2]]⟩ 0 0 [2] 2 [1, 3] rfl rfl (by decide)

/-! ## Dashboard (cell 11)

The layout holds a Start button, an End button, a model-selector
dropdown, a prediction graph and three metric text regions.  One
callback is registered: its outputs are the graph figure and the three
texts, its inputs are the Start button's click count and the selected
model key.  Its body, "update_output(n_clicks, model_type)", builds a
two-trace figure from the stored predictions and renders the stored
metrics when n_clicks > 0, and returns an empty figure and empty
strings otherwise. -/

structure Trace where
  name : String
  ys : List ℚ
  mode : String
deriving DecidableEq

structure Figure where
  data : List Trace
deriving DecidableEq

/-- Rendering of a stored double in the metric f-strings. -/
def fpRepr : FP → String
  | FP.fin q => toString q
  | FP.inf => "inf"
  | FP.neginf => "-inf"
  | FP.nan => "nan"

/-- Process-memory state read by the callback: the per-model stored
predictions ("predictions"), the per-model stored metric triple
RMSE, MSE, MAPE ("results"), and the test target series ("y_test").
All of it is written before the dashboard starts and only read by the
callback. -/
structure AppState where
  predictions : ModelKey → List ℚ
  results : ModelKey → FP × FP × FP
  y_test : List ℚ

/-- Embedding of the callback body "update_output(n_clicks, model_type)":
with a positive click count, a figure with the Predicted and Actual
traces of the selected model and the three metric strings; otherwise an
empty figure and empty strings. -/
def update_output (st : AppState) (n_clicks : ℕ) (model_type : ModelKey) :
    Figure × String × String × String :=
  if 0 < n_clicks then
    let preds := st.predictions model_type
    let trace : Trace := ⟨"Predicted", preds, "lines+markers"⟩
    let trace_actual : Trace := ⟨"Actual", st.y_test, "lines"⟩
    let metrics := st.results model_type
    (⟨[trace, trace_actual]⟩,
     "RMSE: " ++ fpRepr metrics.1,
     "MSE: " ++ fpRepr metrics.2.1,
     "MAPE: " ++ fpRepr metrics.2.2)
  else (⟨[]⟩, "", "", "")

/-- C4: for every callback input pair, a positive click count yields a
chart of exactly the two series "Predicted" (the selected model's
stored predictions) and "Actual" (the stored test target), with the
first metric string starting "RMSE:"; a zero click count yields an
empty chart and three empty strings. -/
theorem C4_callback (st : AppState) (n_clicks : ℕ) (k : ModelKey) :
    (0 < n_clicks →
      ((update_output st n_clicks k).1).data.map Trace.name
          = ["Predicted", "Actual"] ∧
      ((update_output st n_clicks k).1).data.map Trace.ys
          = [st.predictions k, st.y_test] ∧
      (∃ r, (update_output st n_clicks k).2.1 = "RMSE: " ++ r)) ∧
    (n_clicks = 0 →
      (update_output st n_clicks k).1 = ⟨[]⟩ ∧
      (update_output st n_clicks k).2.1 = "" ∧
      (update_output st n_clicks k).2.2.1 = "" ∧
      (update_output st n_clicks k).2.2.2 = "") := by
  constructor
  · intro h
    simp only [update_output, if_pos h]
    exact ⟨rfl, rfl, ⟨fpRepr (st.results k).1, rfl⟩⟩
  · intro h
    subst h
    simp [update_output]

/-- A concrete in-memory application state. -/
def sampleApp : AppState :=
  ⟨fun _ => [1, 2], fun _ => (FP.fin 1, FP.fin 1, FP.inf), [0, 2]⟩

/-- Closed instance of C4: the rf model with one click renders the two
series and an "RMSE:"-headed string; with zero clicks, empty outputs. -/
theorem C4_callback_witness :
    (((update_output sampleApp 1 ModelKey.rf).1).data.map Trace.name
        = ["Predicted", "Actual"] ∧
      ((update_output sampleApp 1 ModelKey.rf).1).data.map Trace.ys
        = [sampleApp.predictions ModelKey.rf, sampleApp.y_test] ∧
      (∃ r, (update_output sampleApp 1 ModelKey.rf).2.1 = "RMSE: " ++ r)) ∧
    ((update_output sampleApp 0 ModelKey.rf).1 = ⟨[]⟩ ∧
      (update_output sampleApp 0 ModelKey.rf).2.1 = "" ∧
      (update_output sampleApp 0 ModelKey.rf).2.2.1 = "" ∧
      (update_output sampleApp 0 ModelKey.rf).2.2.2 = "") :=
  ⟨(C4_callback sampleApp 1 ModelKey.rf).1 (by decide),
   (C4_callback sampleApp 0 ModelKey.rf).2 rfl⟩

/-- Component identifiers of the dashboard layout. -/
inductive ComponentId where
  | startButton | endButton | modelSelector | predictionGraph
  | rmseDisplay | mseDisplay | mapeDisplay
deriving DecidableEq

/-- The components wired into the layout (cell 11): both buttons, the
dropdown, the graph and the three text regions. -/
def layoutComponents : List ComponentId :=
  [ComponentId.startButton, ComponentId.endButton,
   ComponentId.modelSelector, ComponentId.predictionGraph,
   ComponentId.rmseDisplay, ComponentId.mseDisplay,
   ComponentId.mapeDisplay]

/-- The input references of the only registered callback:
"Input(start-button, n_clicks)" and "Input(model-selector, value)". -/
def callbackInputs : List (ComponentId × String) :=
  [(ComponentId.startButton, "n_clicks"),
   (ComponentId.modelSelector, "value")]

/-- Observable dashboard UI state: the two click counters and the
selected model. -/
structure DashState where
  startClicks : ℕ
  endClicks : ℕ
  selected : ModelKey

/-- The click counter a component holds in the UI state. -/
def readClicks (s : DashState) : ComponentId → ℕ
  | ComponentId.startButton => s.startClicks
  | ComponentId.endButton => s.endClicks
  | _ => 0

/-- The click-count arguments Dash passes to the callback: the counters
of exactly those registered inputs whose watched property is a click
count. -/
def inputArgClicks (s : DashState) : List ℕ :=
  callbackInputs.filterMap
    (fun p => if p.2 = "n_clicks" then some (readClicks s p.1) else none)

/-- Dash dispatch: the callback runs on the current values of its
registered inputs and its result is what the dashboard displays. -/
def renderDashboard (st : AppState) (s : DashState) :
    Figure × String × String × String :=
  update_output st ((inputArgClicks s).headD 0) s.selected

/-- One End-button click: its counter increments; nothing else moves. -/
def clickEnd (s : DashState) : DashState :=
  ⟨s.startClicks, s.endClicks + 1, s.selected⟩

/-- C9: the End button sits in the layout but is not an input of any
registered callback, so for every dashboard state any number of
End-button clicks leaves the chart and all three metric texts
unchanged. -/
theorem C9_end_button_noop (st : AppState) (s : DashState) (n : ℕ) :
    ComponentId.endButton ∈ layoutComponents ∧
    (∀ prop, (ComponentId.endButton, prop) ∉ callbackInputs) ∧
    renderDashboard st (clickEnd^[n] s) = renderDashboard st s := by
  refine ⟨by simp [layoutComponents], ?_, ?_⟩
  · intro prop hmem
    simp only [callbackInputs, List.mem_cons, List.not_mem_nil,
      or_false, Prod.mk.injEq] at hmem
    rcases hmem with ⟨h, _⟩ | ⟨h, _⟩ <;> exact ComponentId.noConfusion h
  · have hfix : ∀ m, (clickEnd^[m] s).startClicks = s.startClicks ∧
        (clickEnd^[m] s).selected = s.selected := by
      intro m
      induction m with
      | zero => exact ⟨rfl, rfl⟩
      | succ m ih =>
        rw [Function.iterate_succ_apply']
        exact ⟨ih.1, ih.2⟩
    simp only [renderDashboard, inputArgClicks, callbackInputs,
      List.filterMap, readClicks]
    rw [(hfix n).1, (hfix n).2]

end SolarEnergy
